import Mathlib

/-!
Verification of the `fallbackValue` path accessor (src/index.ts).

The runtime core is two functions:
  * `tokenize` — splits a path string into segments (dot separators,
    bracket segments, `\.` escapes);
  * `fallbackValue` — walks a root value through the segments, blocking the
    unsafe keys `__proto__` / `prototype` / `constructor`, reading only own
    properties, and returning a caller-supplied fallback on any failure.

We embed the JavaScript value universe as the inductive `JSValue`
(`undef` is JavaScript's `undefined`, the "absence value"; arrays expose
their elements under canonical numeric string keys plus `length`, exactly
as own properties in JS).  The type-level path machinery in the source has
no runtime behaviour and is not modelled.
-/

namespace FallbackValue

/-- The universe of JavaScript values the accessor operates on.
`undef` is `undefined` (the absence value); `obj` carries the own
properties of a plain object as an association list (keys unique by
construction of JS object literals; lookup takes the first match);
`arr` is an array whose own properties are its canonical index keys and
`length`.  Functions are not modelled: no claim exercises them. -/
inductive JSValue where
  | undef : JSValue
  | null : JSValue
  | bool : Bool → JSValue
  | num : Int → JSValue
  | str : String → JSValue
  | obj : List (String × JSValue) → JSValue
  | arr : List JSValue → JSValue

namespace JSValue

/-- JavaScript `x == null` (loose equality): true exactly for `null` and
`undefined`. -/
def isNullish : JSValue → Bool
  | .null => true
  | .undef => true
  | _ => false

/-- JavaScript `x === undefined` (strict equality against `undefined` is a
tag check). -/
def isUndef : JSValue → Bool
  | .undef => true
  | _ => false

/-- Test `typeof current === "object" || typeof current === "function"` for a
non-nullish value: in the modelled universe, objects and arrays. -/
def isIndexable : JSValue → Bool
  | .obj _ => true
  | .arr _ => true
  | _ => false

end JSValue

/-- Source constant `UNSAFE_KEYS = new Set(["__proto__", "prototype", "constructor"])`. -/
def UNSAFE_KEYS : List String := ["__proto__", "prototype", "constructor"]

/-- A string is a canonical JS array-index key: non-empty, all decimal
digits, no leading zero (except `"0"` itself).  `[1,2].hasOwnProperty("01")`
is false in JS; only the canonical spelling is an own property. -/
def isCanonicalIndex (s : String) : Bool :=
  !s.data.isEmpty && s.data.all Char.isDigit && (s = "0" || s.data.head? != some '0')

/-- Decimal value of a digit string (accumulator form). -/
def digitsToNat : List Char → Nat → Nat
  | [], acc => acc
  | c :: rest, acc => digitsToNat rest (acc * 10 + (c.toNat - '0'.toNat))

/-- Embedding of `Object.prototype.hasOwnProperty.call(current, segment) ? current[segment] : SENTINEL`,
with the sentinel modelled by `none` (the sentinel is a fresh symbol, so it
can never collide with a stored value).  For objects: association-list
lookup.  For arrays: canonical index keys and `length` are the own
properties. -/
def getOwn : JSValue → String → Option JSValue
  | .obj props, s => props.lookup s
  | .arr elems, s =>
      if s = "length" then some (.num elems.length)
      else if isCanonicalIndex s then elems.get? (digitsToNat s.data 0)
      else none
  | .str cs, s =>
      if s = "length" then some (.num cs.length)
      else if isCanonicalIndex s then
        match cs.data.get? (digitsToNat s.data 0) with
        | some c => some (.str (String.singleton c))
        | none => none
      else none
  | _, _ => none

/-- Source step `if (current) segments.push(current)` — a segment is pushed only when
the accumulator is non-empty (JS string truthiness). -/
def flush (cur : String) : List String :=
  if cur = "" then [] else [cur]

/-- The three program points of `tokenize`'s scan: `key` is the top of the
outer `while` loop; `bracket` is the inner
`while (i < path.length && path[i] !== "]")` loop; `post` is the
`if (path[i] === ".") i++` check immediately after a `]` is skipped. -/
inductive TokMode where
  | key : TokMode
  | bracket : TokMode
  | post : TokMode

/-- Scan loop of `tokenize` as a recursion over the remaining characters with
the accumulator `cur` (the source's `current`) and the current program
point.  The final `if (current) segments.push(current)` is the `[]` case
(also reached when the inner bracket loop runs off an unbalanced path).
In `key` mode the source's ordered conditionals are: escaped dot
(`\` with lookahead `.`), separator dot, opening bracket, default append;
their guard characters are pairwise distinct, so they are tested here in
the order dot, bracket, backslash-with-lookahead, default, which selects
the same branch.  In `post` mode, a `.` is skipped as a redundant
separator and any other character is handled by the outer-loop rules
again (`current` is always empty at that point, having just been
cleared). -/
def tokenizeGo : List Char → String → TokMode → List String
  | [], cur, _ => flush cur
  | '\\' :: '.' :: rest, cur, .key => tokenizeGo rest (cur.push '.') .key
  | c :: rest, cur, .key =>
      if c = '.' then flush cur ++ tokenizeGo rest "" .key
      else if c = '[' then flush cur ++ tokenizeGo rest "" .bracket
      else tokenizeGo rest (cur.push c) .key
  | c :: rest, cur, .bracket =>
      if c = ']' then flush cur ++ tokenizeGo rest "" .post
      else tokenizeGo rest (cur.push c) .bracket
  | '.' :: rest, cur, .post => tokenizeGo rest cur .key
  | '\\' :: '.' :: rest, cur, .post => tokenizeGo rest (cur.push '.') .key
  | c :: rest, cur, .post =>
      if c = '[' then flush cur ++ tokenizeGo rest "" .bracket
      else tokenizeGo rest (cur.push c) .key

/-- Embedding of `tokenize(path)`: split a path string into segments. -/
def tokenize (path : String) : List String :=
  tokenizeGo path.data "" .key

/-- The `for (const segment of segments)` loop of `fallbackValue` together
with the final `current === undefined ? defaultVal : current` check.  Per
segment, in source order: unsafe-key block, non-traversable check
(`current == null || (typeof current !== "object" && typeof current !== "function")`),
own-property lookup with the sentinel turned into `none`. -/
def resolveSegs (fb : JSValue) : List String → JSValue → JSValue
  | [], cur => if cur.isUndef then fb else cur
  | s :: rest, cur =>
      if s ∈ UNSAFE_KEYS then fb
      else if cur.isNullish || !cur.isIndexable then fb
      else
        match getOwn cur s with
        | some v => resolveSegs fb rest v
        | none => fb

/-- Embedding of `fallbackValue(val, path, defaultVal)`.  Here `path` is `Option String`:
`none` covers both an absent and a `null` path (the source tests
`path != null`, loose equality).  With a path: tokenize and traverse.
Without: `val == null ? defaultVal : val`. -/
def fallbackValue (val : JSValue) (path : Option String) (defaultVal : JSValue) : JSValue :=
  match path with
  | some p => resolveSegs defaultVal (tokenize p) val
  | none => if val.isNullish then defaultVal else val

/-! ### Exception-aware embedding

In JavaScript the only operations in `fallbackValue` that can throw are
property reads on a nullish receiver: `current[segment]` and
`Object.prototype.hasOwnProperty.call(current, segment)` both raise
`TypeError` when `current` is `null` or `undefined` (every other receiver
is boxed).  `tokenize` performs only string indexing, which yields
`undefined` out of range and never throws.  The `Except`-valued embedding
below makes those two throwing operations explicit; proving it always
returns `.ok` is the never-throws contract. -/

/-- Call `Object.prototype.hasOwnProperty.call(current, segment)`: throws
`TypeError` on a nullish receiver, otherwise reports whether the (boxed)
receiver directly owns the property. -/
def hasOwnE (cur : JSValue) (s : String) : Except String Bool :=
  match cur with
  | .null => .error "TypeError"
  | .undef => .error "TypeError"
  | _ => .ok (getOwn cur s).isSome

/-- Read `current[segment]`: throws `TypeError` on a nullish receiver,
otherwise reads the property.  The source only evaluates this under a
`hasOwnProperty` guard, so the inherited-lookup branch (own property
absent) is modelled as the JS `undefined` it would produce for the
prototype-less values in scope. -/
def getMemberE (cur : JSValue) (s : String) : Except String JSValue :=
  match cur with
  | .null => .error "TypeError"
  | .undef => .error "TypeError"
  | _ => .ok ((getOwn cur s).getD .undef)

/-- The traversal loop of `fallbackValue` with the two throwing
operations explicit, in source order: unsafe-key block, non-traversable
check, `hasOwnProperty` call, member read (the sentinel branch is the
`.ok false` case). -/
def resolveSegsE (fb : JSValue) : List String → JSValue → Except String JSValue
  | [], cur => .ok (if cur.isUndef then fb else cur)
  | s :: rest, cur =>
      if s ∈ UNSAFE_KEYS then .ok fb
      else if cur.isNullish || !cur.isIndexable then .ok fb
      else
        match hasOwnE cur s with
        | .error e => .error e
        | .ok false => .ok fb
        | .ok true =>
            match getMemberE cur s with
            | .error e => .error e
            | .ok v => resolveSegsE fb rest v

/-- Embedding of `fallbackValue` with throwing property reads explicit. -/
def fallbackValueE (val : JSValue) (path : Option String) (defaultVal : JSValue) :
    Except String JSValue :=
  match path with
  | some p => resolveSegsE defaultVal (tokenize p) val
  | none => .ok (if val.isNullish then defaultVal else val)

/-! ### Heap embedding

To state the frame properties — the call never mutates the root value or
any value nested inside it, and never adds a property to the shared
prototype object — we re-embed the traversal over an explicit store.
Objects and arrays live in the store and are passed by reference
(`href`), exactly as in JavaScript; the shared `Object.prototype` is just
another store cell that the root may reference.  Every operation returns
the store it ran in, so a mutation would be visible as a changed store. -/

/-- Heap-allocated JavaScript values: scalars are immediate, objects and
arrays are references into the store. -/
inductive HVal where
  | hundef : HVal
  | hnull : HVal
  | hbool : Bool → HVal
  | hnum : Int → HVal
  | hstr : String → HVal
  | href : Nat → HVal
  deriving DecidableEq

/-- A store cell: a plain object's own properties, or an array. -/
inductive HCell where
  | obj : List (String × HVal) → HCell
  | arr : List HVal → HCell
  deriving DecidableEq

/-- The store: cell `i` is the object/array with reference `i`. -/
abbrev Store := List HCell

/-- Loose `x == null` for heap values. -/
def HVal.isNullish : HVal → Bool
  | .hnull => true
  | .hundef => true
  | _ => false

/-- Own-property read on a store cell (same own-property semantics as
`getOwn`). -/
def getOwnH : HCell → String → Option HVal
  | .obj props, s => props.lookup s
  | .arr elems, s =>
      if s = "length" then some (.hnum elems.length)
      else if isCanonicalIndex s then elems.get? (digitsToNat s.data 0)
      else none

/-- The traversal loop over the store.  A non-reference, non-nullish
value fails the `typeof` check; a reference is dereferenced and its own
properties read.  The store is threaded through and returned so that
mutation, if the code performed any, would be observable. -/
def resolveSegsH (fb : HVal) : List String → HVal → Store → Store × HVal
  | [], cur, σ => (σ, if cur = .hundef then fb else cur)
  | s :: rest, cur, σ =>
      if s ∈ UNSAFE_KEYS then (σ, fb)
      else
        match cur with
        | .href r =>
            match σ.get? r with
            | some cell =>
                match getOwnH cell s with
                | some v => resolveSegsH fb rest v σ
                | none => (σ, fb)
            | none => (σ, fb)
        | _ => (σ, fb)

/-- Embedding of `fallbackValue` over the store. -/
def fallbackValueH (σ : Store) (val : HVal) (path : Option String) (defaultVal : HVal) :
    Store × HVal :=
  match path with
  | some p => resolveSegsH defaultVal (tokenize p) val σ
  | none => (σ, if val.isNullish then defaultVal else val)

/-! ### Escaping dots (for the round-trip property) -/

/-- Escape every literal dot of a key with a backslash (the path spelling
`\.` that `tokenize` turns back into a literal dot). -/
def escapeDotsL : List Char → List Char
  | [] => []
  | c :: rest =>
      if c = '.' then '\\' :: '.' :: escapeDotsL rest
      else c :: escapeDotsL rest

/-- Escape every literal dot of a key string. -/
def escapeDots (k : String) : String :=
  ⟨escapeDotsL k.data⟩

/-! ### Helper lemmas -/

theorem JSValue.isUndef_eq_false {v : JSValue} (h : v ≠ .undef) : v.isUndef = false := by
  cases v <;> first | rfl | exact absurd rfl h

/-- A key containing a literal dot is never one of the three unsafe keys. -/
theorem dot_notin_unsafe {k : String} (h : '.' ∈ k.data) : k ∉ UNSAFE_KEYS := by
  intro hmem
  simp only [UNSAFE_KEYS, List.mem_cons, List.not_mem_nil, or_false] at hmem
  rcases hmem with rfl | rfl | rfl
  · exact absurd h (by decide)
  · exact absurd h (by decide)
  · exact absurd h (by decide)

/-- A backslash not followed by a dot takes the default branch of the
scan: it is appended verbatim to the accumulator. -/
theorem tokenizeGo_backslash (rest : List Char) (cur : String)
    (h : rest.head? ≠ some '.') :
    tokenizeGo ('\\' :: rest) cur .key = tokenizeGo rest (cur.push '\\') .key := by
  cases rest with
  | nil => rfl
  | cons d r =>
      have hd : d ≠ '.' := by simpa using h
      conv_lhs => rw [tokenizeGo.eq_def]
      split
      · simp_all
      · simp_all
      · rename_i hno heq
        injection hno with h1 h2
        subst h1
        subst h2
        simp
      · simp_all
      · simp_all
      · simp_all
      · simp_all

/-- Any character other than `.`, `[`, `\` takes the default branch of
the scan: it is appended to the accumulator. -/
theorem tokenizeGo_append (c : Char) (rest : List Char) (cur : String)
    (hdot : c ≠ '.') (hbr : c ≠ '[') (hbs : c ≠ '\\') :
    tokenizeGo (c :: rest) cur .key = tokenizeGo rest (cur.push c) .key := by
  conv_lhs => rw [tokenizeGo.eq_def]
  split
  · simp_all
  · simp_all
  · rename_i hno heq
    injection hno with h1 h2
    subst h1
    subst h2
    simp [hdot, hbr]
  · simp_all
  · simp_all
  · simp_all
  · simp_all

/-- The escaped form of a key never starts with an unescaped dot. -/
theorem escapeDotsL_head_ne_dot (l : List Char) : (escapeDotsL l).head? ≠ some '.' := by
  cases l with
  | nil => simp [escapeDotsL]
  | cons c r =>
      by_cases hc : c = '.'
      · subst hc; simp [escapeDotsL]
      · simp [escapeDotsL, hc]

/-- Scanning the escaped form of a bracket-free key never leaves `key`
mode and reconstitutes the key verbatim in the accumulator. -/
theorem tokenizeGo_escapeDotsL : ∀ (l acc : List Char), '[' ∉ l →
    tokenizeGo (escapeDotsL l) ⟨acc⟩ .key = flush ⟨acc ++ l⟩
  | [], acc, _ => by simp [escapeDotsL, tokenizeGo]
  | c :: r, acc, h => by
      have hr : '[' ∉ r := fun hm => h (List.mem_cons_of_mem _ hm)
      have hcbr : c ≠ '[' := fun hc => h (hc ▸ List.mem_cons_self _ _)
      by_cases hdot : c = '.'
      · subst hdot
        show tokenizeGo ('\\' :: '.' :: escapeDotsL r) ⟨acc⟩ .key = _
        rw [show tokenizeGo ('\\' :: '.' :: escapeDotsL r) ⟨acc⟩ .key
              = tokenizeGo (escapeDotsL r) ((⟨acc⟩ : String).push '.') .key from rfl]
        rw [show ((⟨acc⟩ : String).push '.') = (⟨acc ++ ['.']⟩ : String) from rfl]
        rw [tokenizeGo_escapeDotsL r (acc ++ ['.']) hr]
        simp
      · by_cases hbs : c = '\\'
        · subst hbs
          show tokenizeGo ('\\' :: escapeDotsL r) ⟨acc⟩ .key = _
          rw [tokenizeGo_backslash (escapeDotsL r) ⟨acc⟩ (escapeDotsL_head_ne_dot r)]
          rw [show ((⟨acc⟩ : String).push '\\') = (⟨acc ++ ['\\']⟩ : String) from rfl]
          rw [tokenizeGo_escapeDotsL r (acc ++ ['\\']) hr]
          simp
        · have he : escapeDotsL (c :: r) = c :: escapeDotsL r := by
            simp [escapeDotsL, hdot]
          rw [he, tokenizeGo_append c (escapeDotsL r) ⟨acc⟩ hdot hcbr hbs]
          rw [show ((⟨acc⟩ : String).push c) = (⟨acc ++ [c]⟩ : String) from rfl]
          rw [tokenizeGo_escapeDotsL r (acc ++ [c]) hr]
          simp

/-- Tokenizing the escaped form of a non-empty bracket-free key yields
exactly that key as the single segment. -/
theorem tokenize_escapeDots (k : String) (hk : k ≠ "") (hbr : '[' ∉ k.data) :
    tokenize (escapeDots k) = [k] := by
  have h := tokenizeGo_escapeDotsL k.data [] hbr
  simp only [List.nil_append] at h
  have : tokenize (escapeDots k) = flush k := h
  rw [this, flush, if_neg hk]

/-- The guards of the traversal loop dominate both throwing operations:
the loop evaluates to `.ok` of the pure traversal on every input. -/
theorem resolveSegsE_ok : ∀ (segs : List String) (fb cur : JSValue),
    resolveSegsE fb segs cur = .ok (resolveSegs fb segs cur)
  | [], _, _ => rfl
  | s :: rest, fb, cur => by
      by_cases hu : s ∈ UNSAFE_KEYS
      · simp [resolveSegsE, resolveSegs, hu]
      · cases cur with
        | obj props =>
            cases h : getOwn (.obj props) s with
            | none =>
                simp [resolveSegsE, resolveSegs, hu, hasOwnE, getMemberE, h,
                  JSValue.isNullish, JSValue.isIndexable]
            | some v =>
                simp [resolveSegsE, resolveSegs, hu, hasOwnE, getMemberE, h,
                  JSValue.isNullish, JSValue.isIndexable, resolveSegsE_ok rest fb v]
        | arr elems =>
            cases h : getOwn (.arr elems) s with
            | none =>
                simp [resolveSegsE, resolveSegs, hu, hasOwnE, getMemberE, h,
                  JSValue.isNullish, JSValue.isIndexable]
            | some v =>
                simp [resolveSegsE, resolveSegs, hu, hasOwnE, getMemberE, h,
                  JSValue.isNullish, JSValue.isIndexable, resolveSegsE_ok rest fb v]
        | undef => simp [resolveSegsE, resolveSegs, hu, JSValue.isNullish]
        | null => simp [resolveSegsE, resolveSegs, hu, JSValue.isNullish]
        | bool b =>
            simp [resolveSegsE, resolveSegs, hu, JSValue.isNullish, JSValue.isIndexable]
        | num n =>
            simp [resolveSegsE, resolveSegs, hu, JSValue.isNullish, JSValue.isIndexable]
        | str t =>
            simp [resolveSegsE, resolveSegs, hu, JSValue.isNullish, JSValue.isIndexable]

/-- A segment list containing an unsafe key always resolves to the
fallback, whatever the current value. -/
theorem resolveSegs_unsafe : ∀ (segs : List String) (fb cur : JSValue),
    (∃ s ∈ segs, s ∈ UNSAFE_KEYS) → resolveSegs fb segs cur = fb
  | [], _, _, h => absurd h (by simp)
  | s :: rest, fb, cur, h => by
      by_cases hu : s ∈ UNSAFE_KEYS
      · simp [resolveSegs, hu]
      · obtain ⟨t, ht, hut⟩ := h
        rcases List.mem_cons.mp ht with rfl | htr
        · exact absurd hut hu
        · have hrest : ∃ u ∈ rest, u ∈ UNSAFE_KEYS := ⟨t, htr, hut⟩
          simp only [resolveSegs, if_neg hu]
          split
          · rfl
          · split
            · exact resolveSegs_unsafe rest fb _ hrest
            · rfl

/-- The heap traversal returns its store unchanged: no cell — in
particular not the shared prototype object — is ever written. -/
theorem resolveSegsH_store : ∀ (segs : List String) (fb cur : HVal) (σ : Store),
    (resolveSegsH fb segs cur σ).1 = σ
  | [], _, _, _ => rfl
  | s :: rest, fb, cur, σ => by
      simp only [resolveSegsH]
      split
      · rfl
      · cases cur with
        | href r =>
            cases hσ : σ[r]? with
            | none => simp [hσ]
            | some cell =>
                cases hg : getOwnH cell s with
                | none => simp [hσ, hg]
                | some v => simp [hσ, hg, resolveSegsH_store rest fb v σ]
        | hundef => rfl
        | hnull => rfl
        | hbool b => rfl
        | hnum n => rfl
        | hstr t => rfl

/-- Heap version of the unsafe-key short-circuit: the result is the
fallback and the store is untouched. -/
theorem resolveSegsH_unsafe : ∀ (segs : List String) (fb cur : HVal) (σ : Store),
    (∃ s ∈ segs, s ∈ UNSAFE_KEYS) → resolveSegsH fb segs cur σ = (σ, fb)
  | [], _, _, _, h => absurd h (by simp)
  | s :: rest, fb, cur, σ, h => by
      by_cases hu : s ∈ UNSAFE_KEYS
      · simp [resolveSegsH, hu]
      · obtain ⟨t, ht, hut⟩ := h
        rcases List.mem_cons.mp ht with rfl | htr
        · exact absurd hut hu
        · have hrest : ∃ u ∈ rest, u ∈ UNSAFE_KEYS := ⟨t, htr, hut⟩
          simp only [resolveSegsH, if_neg hu]
          cases cur with
          | href r =>
              cases hσ : σ[r]? with
              | none => simp [hσ]
              | some cell =>
                  cases hg : getOwnH cell s with
                  | none => simp [hσ, hg]
                  | some v => simp [hσ, hg, resolveSegsH_unsafe rest fb v σ hrest]
          | hundef => rfl
          | hnull => rfl
          | hbool b => rfl
          | hnum n => rfl
          | hstr t => rfl

/-- Inside a bracket, any character other than `]` is consumed into the
accumulator. -/
theorem tokenizeGo_bracket_step (c : Char) (l : List Char) (cur : String) (hc : c ≠ ']') :
    tokenizeGo (c :: l) cur .bracket = tokenizeGo l (cur.push c) .bracket := by
  conv_lhs => rw [tokenizeGo.eq_def]
  split
  · simp_all
  · simp_all
  · simp_all
  · rename_i hno heq
    injection hno with h1 h2
    subst h1
    subst h2
    simp [hc]
  · simp_all
  · simp_all
  · simp_all

/-- Scanning a `]`-free bracket body followed by `]` pushes the
accumulated content (when non-empty) and moves to the dot-skip point. -/
theorem tokenizeGo_bracket_content : ∀ (content acc rest : List Char), ']' ∉ content →
    tokenizeGo (content ++ ']' :: rest) ⟨acc⟩ .bracket
      = flush ⟨acc ++ content⟩ ++ tokenizeGo rest "" .post
  | [], acc, rest, _ => by
      rw [List.nil_append, List.append_nil]
      rfl
  | c :: cs, acc, rest, h => by
      have hc : c ≠ ']' := fun hh => h (hh ▸ List.mem_cons_self _ _)
      have hcs : ']' ∉ cs := fun hm => h (List.mem_cons_of_mem _ hm)
      rw [List.cons_append, tokenizeGo_bracket_step c _ ⟨acc⟩ hc]
      rw [show ((⟨acc⟩ : String).push c) = (⟨acc ++ [c]⟩ : String) from rfl]
      rw [tokenizeGo_bracket_content cs (acc ++ [c]) rest hcs]
      simp

/-! ### Claims -/

/-- C1: for every combination of root value, path (present or absent,
well-formed or malformed) and fallback, `fallbackValue` never raises:
the exception-aware embedding, in which property reads on nullish
receivers throw, always returns `.ok` of the pure result (tokenization
itself is a total function). -/
theorem c1_resolve_never_throws (val : JSValue) (path : Option String) (fb : JSValue) :
    fallbackValueE val path fb = .ok (fallbackValue val path fb) := by
  cases path with
  | none => rfl
  | some p => exact resolveSegsE_ok (tokenize p) fb val

/-- C2: whenever the tokenized path contains one of `__proto__`,
`prototype`, `constructor` — at any position — resolution returns the
fallback, and (heap embedding) the store, which holds every shared
object including the prototype object, is returned unchanged with no
property added. -/
theorem c2_unsafe_keys_short_circuit :
    (∀ (v fb : JSValue) (p : String), (∃ s ∈ tokenize p, s ∈ UNSAFE_KEYS) →
        fallbackValue v (some p) fb = fb) ∧
    (∀ (σ : Store) (hv hfb : HVal) (p : String), (∃ s ∈ tokenize p, s ∈ UNSAFE_KEYS) →
        fallbackValueH σ hv (some p) hfb = (σ, hfb)) := by
  constructor
  · intro v fb p h
    exact resolveSegs_unsafe (tokenize p) fb v h
  · intro σ hv hfb p h
    exact resolveSegsH_unsafe (tokenize p) hfb hv σ h

/-- Witness for C2 at the spec's own examples `"a.__proto__"` and
`"__proto__"`. -/
theorem c2_witness :
    fallbackValue (.obj [("a", .obj [])]) (some "a.__proto__") (.str "safe") = .str "safe" ∧
    fallbackValueH [HCell.obj []] (.href 0) (some "__proto__") (.hstr "safe")
      = ([HCell.obj []], .hstr "safe") := by
  constructor
  · exact c2_unsafe_keys_short_circuit.1 _ _ "a.__proto__" (by decide)
  · exact c2_unsafe_keys_short_circuit.2 _ _ _ "__proto__" (by decide)

/-- C3: after all segments are consumed the fallback is substituted
exactly when the final value is the absence value `undefined`; a stored
`null` survives: `resolve({value: null}, "value", fb) = null` and
`resolve({value: undefined}, "value", "D") = "D"`. -/
theorem c3_stored_null_vs_stored_undef :
    (∀ (cur fb : JSValue), resolveSegs fb [] cur = if cur.isUndef then fb else cur) ∧
    (∀ fb : JSValue, fallbackValue (.obj [("value", .null)]) (some "value") fb = .null) ∧
    fallbackValue (.obj [("value", .undef)]) (some "value") (.str "D") = .str "D" :=
  ⟨fun _ _ => rfl, fun _ => rfl, rfl⟩

/-- C4: with no (or null) path, `fallbackValue` is nullish coalescing:
the root is returned unless it is `null` or `undefined` — falsy values
such as `0`, `false`, `""` are returned, not replaced. -/
theorem c4_no_path_nullish_coalescing :
    (∀ (v fb : JSValue), fallbackValue v none fb = if v.isNullish then fb else v) ∧
    (∀ v : JSValue, v.isNullish = true ↔ v = .null ∨ v = .undef) ∧
    fallbackValue .null none (.str "D") = .str "D" ∧
    fallbackValue (.num 0) none (.num 99) = .num 0 ∧
    fallbackValue (.bool false) none (.bool true) = .bool false ∧
    fallbackValue (.str "") none (.str "fb") = .str "" := by
  refine ⟨fun _ _ => rfl, ?_, rfl, rfl, rfl, rfl⟩
  intro v
  cases v <;> simp [JSValue.isNullish]

/-- Counterexample to C5 as stated: the key `".["` contains a dot, but
escaping its dots gives the path `"\.["`, whose `[` switches the
tokenizer into bracket mode, so the segment is `"."`, not the key; the
lookup misses and the fallback `0` is returned instead of the stored
`1`. -/
theorem c5_counterexample :
    ('.' ∈ (".[" : String).data) ∧
    fallbackValue (.obj [(".[", .num 1)]) (some (escapeDots ".[")) (.num 0) = .num 0 ∧
    JSValue.num 0 ≠ JSValue.num 1 := by
  refine ⟨by decide, rfl, ?_⟩
  intro h
  injection h with h1
  exact absurd h1 (by decide)

/-- C5 (amended): for every key `k` containing at least one literal dot
and no `[` character, and every stored value `v` other than the absence
value, escaping each dot of `k` with a backslash and resolving the
resulting path against `{k: v}` returns `v` for any fallback. -/
theorem c5_escaped_dot_round_trip (k : String) (v fb : JSValue)
    (hdot : '.' ∈ k.data) (hbr : '[' ∉ k.data) (hv : v ≠ .undef) :
    fallbackValue (.obj [(k, v)]) (some (escapeDots k)) fb = v := by
  have hk : k ≠ "" := by
    intro h
    subst h
    exact absurd hdot (by decide)
  have hseg := tokenize_escapeDots k hk hbr
  have hku : k ∉ UNSAFE_KEYS := dot_notin_unsafe hdot
  simp only [fallbackValue, hseg, resolveSegs, if_neg hku]
  simp [getOwn, List.lookup, JSValue.isNullish, JSValue.isIndexable, resolveSegs,
    JSValue.isUndef_eq_false hv]

/-- Witness for C5 (amended) at `k = "a.b"`, `v = 7`. -/
theorem c5_witness :
    fallbackValue (.obj [("a.b", .num 7)]) (some (escapeDots "a.b")) (.num 0) = .num 7 :=
  c5_escaped_dot_round_trip "a.b" (.num 7) (.num 0) (by decide) (by decide)
    (fun h => JSValue.noConfusion h)

/-- Counterexample to C6 as stated: the final check of the traversal is
strict equality with `undefined` only, so an empty path over a `null`
root returns `null` itself, not the fallback the claim requires. -/
theorem c6_counterexample :
    fallbackValue .null (some "") (.str "D") = .null ∧ JSValue.null ≠ JSValue.str "D" :=
  ⟨rfl, fun h => JSValue.noConfusion h⟩

/-- C6 (amended): the empty path tokenizes to zero segments and the
root is returned subject to the final `=== undefined` check only: the
fallback is substituted exactly when the root is the absence value, and
a `null` root is returned as-is. -/
theorem c6_empty_path :
    tokenize "" = [] ∧
    (∀ (v fb : JSValue), fallbackValue v (some "") fb = if v.isUndef then fb else v) :=
  ⟨rfl, fun _ _ => rfl⟩

/-- C7: a `[` pushes the (non-empty) accumulator, the characters up to
the next `]` become a segment (pushed when non-empty), the `]` is
skipped and a single following `.` is skipped; consecutive brackets and
bracket-then-dot paths tokenize as in the spec examples. -/
theorem c7_bracket_tokenization :
    (∀ (content rest : List Char) (acc : String), ']' ∉ content →
        tokenizeGo ('[' :: (content ++ ']' :: rest)) acc .key
          = flush acc ++ flush ⟨content⟩ ++ tokenizeGo rest "" .post) ∧
    (∀ (l : List Char) (cur : String), tokenizeGo ('.' :: l) cur .post = tokenizeGo l cur .key) ∧
    tokenize "matrix[1][0]" = ["matrix", "1", "0"] ∧
    tokenize "a[0].b" = ["a", "0", "b"] ∧
    tokenize "a[0][1]" = ["a", "0", "1"] := by
  refine ⟨?_, fun _ _ => rfl, rfl, rfl, rfl⟩
  intro content rest acc h
  rw [show tokenizeGo ('[' :: (content ++ ']' :: rest)) acc .key
        = flush acc ++ tokenizeGo (content ++ ']' :: rest) "" .bracket from rfl]
  rw [show ("" : String) = (⟨[]⟩ : String) from rfl]
  rw [tokenizeGo_bracket_content content [] rest h]
  simp

/-- Witness for C7's bracket step at content `"0"` after accumulator
`"a"`. -/
theorem c7_witness : tokenizeGo ('[' :: (['0'] ++ ']' :: [])) "a" .key = ["a", "0"] :=
  (c7_bracket_tokenization.1 ['0'] [] "a" (by decide)).trans rfl

/-- C8: a traversal step returns the fallback whenever the current
value is nullish, not indexable, or lacks the segment as an own
property (inherited members are never consulted: lookup is own-property
only); an out-of-range array index is exactly a missing key, as in
`resolve({items: [1,2]}, "items[9]", -1) = -1`. -/
theorem c8_step_failure_returns_fallback :
    (∀ (cur : JSValue) (s : String) (rest : List String) (fb : JSValue),
        cur.isNullish = true ∨ cur.isIndexable = false ∨ getOwn cur s = none →
        resolveSegs fb (s :: rest) cur = fb) ∧
    fallbackValue (.obj [("items", .arr [.num 1, .num 2])]) (some "items[9]") (.num (-1))
      = .num (-1) := by
  refine ⟨?_, rfl⟩
  intro cur s rest fb h
  by_cases hu : s ∈ UNSAFE_KEYS
  · simp [resolveSegs, hu]
  · simp only [resolveSegs, if_neg hu]
    rcases h with h | h | h
    · simp [h]
    · simp [h]
    · split
      · rfl
      · simp [h]

/-- Witness for C8 at a null intermediate value. -/
theorem c8_witness : resolveSegs (.num 0) ["x"] .null = .num 0 :=
  c8_step_failure_returns_fallback.1 .null "x" [] (.num 0) (Or.inl rfl)

/-- C9: a call never mutates the root value or anything nested in it:
in the heap embedding, where the root and all nested objects live in an
explicit store threaded through the call, the store comes back
unchanged for every input. -/
theorem c9_no_mutation (σ : Store) (v : HVal) (path : Option String) (fb : HVal) :
    (fallbackValueH σ v path fb).1 = σ := by
  cases path with
  | none => rfl
  | some p => exact resolveSegsH_store (tokenize p) fb v σ

/-- C10: a backslash not immediately followed by a dot has no escaping
effect and is copied verbatim into the current segment; only `\.` is
rewritten to a literal dot, so `tokenize "a\b.c" = ["a\b", "c"]`. -/
theorem c10_lone_backslash_verbatim :
    (∀ (rest : List Char) (cur : String), rest.head? ≠ some '.' →
        tokenizeGo ('\\' :: rest) cur .key = tokenizeGo rest (cur.push '\\') .key) ∧
    tokenize "a\\b.c" = ["a\\b", "c"] :=
  ⟨tokenizeGo_backslash, rfl⟩

/-- Witness for C10 at the two-character input backslash-`b`. -/
theorem c10_witness : tokenizeGo ['\\', 'b'] "" .key = ["\\b"] :=
  (c10_lone_backslash_verbatim.1 ['b'] "" (by decide)).trans rfl

end FallbackValue
